import Mathlib

/-!
Shallow embedding of `src/ash/src/util.rs` (the alignment-aware writer of the
`ash` repository) and proofs about it.

Memory is modelled as a total function from byte addresses to byte values
(`Mem`); the destination pointer is abstracted to address 0, so all offsets in
the Rust code become absolute addresses here.  `vk::DeviceSize` is `u64`; all
arithmetic in the source stays far below `2^64` and never underflows (the only
subtraction, in `calc_padding`, subtracts `adr % align < align` from `align`),
so `Nat` models it faithfully.  Panics (`assert!`) are modelled as an explicit
`fault` flag; the Rust `%` operator panics when the right operand is 0, so
theorems about runs carry a `0 < alignment` hypothesis where faithfulness
requires it.  A typed value of a `Copy` type `T` is modelled by its byte
representation, a `List Nat` whose length is `size_of::<T>()`.
-/

/-- Byte-addressed memory: a total map from addresses to byte values. -/
def Mem : Type := Nat → Nat

/-- Write a single byte. -/
def Mem.update (mem : Mem) (addr val : Nat) : Mem :=
  fun i => if i = addr then val else mem i

/-- Write a list of bytes starting at `addr` (the semantics of
`slice::copy_from_slice` on a raw sub-slice of the region). -/
def writeAt (mem : Mem) (addr : Nat) : List Nat → Mem
  | [] => mem
  | b :: bs => writeAt (mem.update addr b) (addr + 1) bs

/-- `fn calc_padding(adr: vk::DeviceSize, align: vk::DeviceSize)`
(util.rs lines 83-85): `(align - adr % align) % align`. -/
def calc_padding (adr align : Nat) : Nat :=
  (align - adr % align) % align

/-- `struct AlignByteSlice` (util.rs lines 11-15), the RawAligner.  The raw
pointer is abstracted away (offsets are absolute addresses); the two `u64`
fields that drive the algorithm remain. -/
structure AlignByteSlice where
  alignment : Nat
  size : Nat
deriving DecidableEq

/-- Result of a `copy_from_slices` run: final memory, final cursor, and
whether the `assert!(current <= self.size)` fired (a panic in Rust). -/
structure RawResult where
  mem : Mem
  cursor : Nat
  fault : Bool

/-- The loop of `AlignByteSlice::copy_from_slices` (util.rs lines 18-32),
with the cursor `current` made explicit.  Per chunk: assert
`current <= size` (fault on violation, nothing further written), copy the
chunk at offset `current`, advance by its length, then add
`current % alignment` as padding — the code's literal formula, which is NOT
`calc_padding current alignment`. -/
def copyFromSlicesAux (alignment size : Nat) : Nat → Mem → List (List Nat) → RawResult
  | current, mem, [] => ⟨mem, current, false⟩
  | current, mem, s :: rest =>
    if current ≤ size then
      copyFromSlicesAux alignment size
        (current + s.length + (current + s.length) % alignment)
        (writeAt mem current s) rest
    else ⟨mem, current, true⟩

/-- `AlignByteSlice::copy_from_slices(&mut self, slices)`: the method never
assigns to `self`'s fields, so it returns the struct unchanged together with
the run's result; the cursor is a local starting at 0 on every call. -/
def AlignByteSlice.copy_from_slices (a : AlignByteSlice) (mem : Mem)
    (slices : List (List Nat)) : AlignByteSlice × RawResult :=
  (a, copyFromSlicesAux a.alignment a.size 0 mem slices)

/-- `struct Align<T>` (util.rs lines 53-59), the TypedAligner: derived
`elem_size` (stride) and `size`; pointer abstracted, `T` carried separately
as its byte size where needed. -/
structure Align where
  elem_size : Nat
  size : Nat
deriving DecidableEq

/-- `Align::<T>::new(ptr, alignment, size)` (util.rs lines 88-102):
computes `elem_size = size_of::<T>() + calc_padding(size_of::<T>, alignment)`
and asserts `calc_padding(size, alignment) == 0`.  The assertion fault is
modelled as `none`; construction touches no memory (it takes and returns no
`Mem`). -/
def Align.new (alignment size sizeT : Nat) : Option Align :=
  if calc_padding size alignment = 0 then
    some ⟨sizeT + calc_padding sizeT alignment, size⟩
  else none

/-- The fast branch of `Align::copy_from_slice` (util.rs lines 70-74): one
contiguous block-copy of all `slice.len()` elements at offset 0. -/
def fastPath (mem : Mem) (slice : List (List Nat)) : Mem :=
  writeAt mem 0 slice.flatten

/-- The slow branch of `Align::copy_from_slice` (util.rs lines 76-78):
`for (i, val) in self.iter_mut().enumerate().take(slice.len())`.  The
iterator (`AlignIter::next`, util.rs lines 112-125) yields the slot at
`current` unless `current == size`, then advances by `elem_size`; the loop
writes element `i`'s bytes there.  `take (slice.len())` bounds the loop by
the input length, hence the structural recursion on the input list. -/
def slowPath (elem size : Nat) : Mem → Nat → List (List Nat) → Mem
  | mem, _, [] => mem
  | mem, current, v :: vs =>
    if current = size then mem
    else slowPath elem size (writeAt mem current v) (current + elem) vs

/-- `Align::<T>::copy_from_slice` (util.rs lines 67-81): fast path when
`elem_size == size_of::<T>()`, slow path through the iterator otherwise. -/
def Align.copy_from_slice (a : Align) (sizeT : Nat) (mem : Mem)
    (slice : List (List Nat)) : Mem :=
  if a.elem_size = sizeT then fastPath mem slice
  else slowPath a.elem_size a.size mem 0 slice

/-- The offset yielded by the `n`-th call to `AlignIter::next`
(util.rs lines 112-125) when the cursor currently stands at `current`:
`none` once some reached cursor equals `size`, otherwise the cursor, which
then advances by `elem`. -/
def nthYield (elem size : Nat) : Nat → Nat → Option Nat
  | current, 0 => if current = size then none else some current
  | current, n + 1 =>
    if current = size then none else nthYield elem size (current + elem) n

/-- Reference writer with no termination check: element `i` of the list is
written at `current + i * elem`.  Used to state what the slow path writes. -/
def writeStrided (elem : Nat) : Mem → Nat → List (List Nat) → Mem
  | mem, _, [] => mem
  | mem, current, v :: vs => writeStrided elem (writeAt mem current v) (current + elem) vs

/-! ### Helper lemmas about `writeAt` -/

theorem writeAt_frame :
    ∀ (data : List Nat) (mem : Mem) (cur addr : Nat),
      addr < cur ∨ cur + data.length ≤ addr → writeAt mem cur data addr = mem addr := by
  intro data
  induction data with
  | nil => intro mem cur addr _; rfl
  | cons b bs ih =>
    intro mem cur addr h
    show writeAt (mem.update cur b) (cur + 1) bs addr = mem addr
    rw [ih (mem.update cur b) (cur + 1) addr (by simp at h ⊢; omega)]
    unfold Mem.update
    have hne : addr ≠ cur := by simp at h; omega
    simp [hne]

theorem writeAt_get :
    ∀ (data : List Nat) (mem : Mem) (cur addr : Nat),
      cur ≤ addr → addr < cur + data.length →
      writeAt mem cur data addr = data.getD (addr - cur) 0 := by
  intro data
  induction data with
  | nil => intro mem cur addr h1 h2; simp at h2; omega
  | cons b bs ih =>
    intro mem cur addr h1 h2
    show writeAt (mem.update cur b) (cur + 1) bs addr = (b :: bs).getD (addr - cur) 0
    rcases Nat.eq_or_lt_of_le h1 with heq | hlt
    · subst heq
      rw [writeAt_frame bs (mem.update cur b) (cur + 1) cur (by omega)]
      simp [Mem.update]
    · rw [ih (mem.update cur b) (cur + 1) addr (by omega) (by simp at h2 ⊢; omega)]
      have hsub : addr - cur = (addr - (cur + 1)) + 1 := by omega
      rw [hsub]
      simp

theorem writeAt_append :
    ∀ (xs ys : List Nat) (mem : Mem) (cur : Nat),
      writeAt mem cur (xs ++ ys) = writeAt (writeAt mem cur xs) (cur + xs.length) ys := by
  intro xs
  induction xs with
  | nil => intro ys mem cur; simp [writeAt]
  | cons b bs ih =>
    intro ys mem cur
    show writeAt (mem.update cur b) (cur + 1) (bs ++ ys) = _
    rw [ih ys (mem.update cur b) (cur + 1)]
    have harith : cur + 1 + bs.length = cur + (bs.length + 1) := by omega
    rw [harith]
    rfl

/-! ### Helper lemmas about `calc_padding` -/

theorem calc_padding_lt (adr align : Nat) (h : 0 < align) :
    calc_padding adr align < align :=
  Nat.mod_lt _ h

theorem calc_padding_add_mod (adr align : Nat) (h : 0 < align) :
    (adr + calc_padding adr align) % align = 0 := by
  unfold calc_padding
  by_cases h0 : adr % align = 0
  · rw [h0, Nat.sub_zero, Nat.mod_self, Nat.add_zero, h0]
  · have hlt : adr % align < align := Nat.mod_lt _ h
    rw [Nat.mod_eq_of_lt (show align - adr % align < align by omega)]
    have hd := Nat.div_add_mod adr align
    have h1 : adr + (align - adr % align) = align * (adr / align) + align := by omega
    rw [h1, show align * (adr / align) + align = align * (adr / align + 1) by ring,
      Nat.mul_mod_right]

theorem calc_padding_eq_zero_iff (adr align : Nat) (h : 0 < align) :
    calc_padding adr align = 0 ↔ adr % align = 0 := by
  unfold calc_padding
  constructor
  · intro h2
    by_cases h0 : adr % align = 0
    · exact h0
    · have hlt : adr % align < align := Nat.mod_lt _ h
      rw [Nat.mod_eq_of_lt (show align - adr % align < align by omega)] at h2
      omega
  · intro h0
    rw [h0, Nat.sub_zero, Nat.mod_self]

/-! ### Helper lemmas about the iterator -/

theorem nthYield_eq (elem size : Nat) (h0 : 0 < elem) :
    ∀ (n cur m : Nat), size = cur + m * elem →
      nthYield elem size cur n = if n < m then some (cur + n * elem) else none := by
  intro n
  induction n with
  | zero =>
    intro cur m hm
    show (if cur = size then none else some cur) = _
    by_cases hc : cur = size
    · have hm0 : m = 0 := by
        rcases Nat.mul_eq_zero.mp (show m * elem = 0 by omega) with h | h
        · exact h
        · omega
      simp [hc, hm0]
    · have hmpos : 0 < m := by
        rcases Nat.eq_zero_or_pos m with h | h
        · exfalso; subst h; simp at hm; omega
        · exact h
      simp [hc, hmpos]
  | succ n ih =>
    intro cur m hm
    show (if cur = size then none else nthYield elem size (cur + elem) n) = _
    by_cases hc : cur = size
    · have hm0 : m = 0 := by
        rcases Nat.mul_eq_zero.mp (show m * elem = 0 by omega) with h | h
        · exact h
        · omega
      simp [hc, hm0]
    · have hmpos : 0 < m := by
        rcases Nat.eq_zero_or_pos m with h | h
        · exfalso; subst h; simp at hm; omega
        · exact h
      obtain ⟨m1, rfl⟩ : ∃ m1, m = m1 + 1 := ⟨m - 1, by omega⟩
      rw [if_neg hc, ih (cur + elem) m1 (by rw [hm]; ring)]
      by_cases hn : n < m1
      · rw [if_pos hn, if_pos (by omega)]
        congr 1
        rw [Nat.succ_mul]
        omega
      · rw [if_neg hn, if_neg (by omega)]

/-! ### Helper lemmas about the raw-chunk loop -/

theorem copyAux_append (alignment size : Nat) :
    ∀ (xs ys : List (List Nat)) (cur : Nat) (mem : Mem),
      copyFromSlicesAux alignment size cur mem (xs ++ ys)
        = (if (copyFromSlicesAux alignment size cur mem xs).fault then
            copyFromSlicesAux alignment size cur mem xs
          else
            copyFromSlicesAux alignment size
              (copyFromSlicesAux alignment size cur mem xs).cursor
              (copyFromSlicesAux alignment size cur mem xs).mem ys) := by
  intro xs
  induction xs with
  | nil => intro ys cur mem; simp [copyFromSlicesAux]
  | cons s rest ih =>
    intro ys cur mem
    show copyFromSlicesAux alignment size cur mem ((s :: rest) ++ ys) = _
    by_cases hc : cur ≤ size
    · simp only [List.cons_append, copyFromSlicesAux, if_pos hc]
      exact ih ys _ _
    · simp only [List.cons_append, copyFromSlicesAux, if_neg hc]
      rfl

theorem copyAux_cursor_mono (alignment size : Nat) :
    ∀ (chunks : List (List Nat)) (cur : Nat) (mem : Mem),
      cur ≤ (copyFromSlicesAux alignment size cur mem chunks).cursor := by
  intro chunks
  induction chunks with
  | nil => intro cur mem; exact Nat.le_refl _
  | cons s rest ih =>
    intro cur mem
    show cur ≤ (if cur ≤ size then _ else RawResult.mk mem cur true).cursor
    by_cases hc : cur ≤ size
    · rw [if_pos hc]
      exact Nat.le_trans (by omega) (ih _ _)
    · rw [if_neg hc]

theorem copyAux_frame_low (alignment size : Nat) :
    ∀ (chunks : List (List Nat)) (cur : Nat) (mem : Mem) (addr : Nat),
      addr < cur → (copyFromSlicesAux alignment size cur mem chunks).mem addr = mem addr := by
  intro chunks
  induction chunks with
  | nil => intro cur mem addr _; rfl
  | cons s rest ih =>
    intro cur mem addr hlt
    show (if cur ≤ size then _ else RawResult.mk mem cur true).mem addr = mem addr
    by_cases hc : cur ≤ size
    · rw [if_pos hc]
      rw [ih _ _ addr (by omega)]
      exact writeAt_frame s mem cur addr (Or.inl hlt)
    · rw [if_neg hc]

/-! ### Helper lemmas about the slow path -/

theorem slowPath_frame_low (elem size : Nat) :
    ∀ (slice : List (List Nat)) (cur : Nat) (mem : Mem) (addr : Nat),
      addr < cur → slowPath elem size mem cur slice addr = mem addr := by
  intro slice
  induction slice with
  | nil => intro cur mem addr _; rfl
  | cons v vs ih =>
    intro cur mem addr hlt
    show (if cur = size then mem else slowPath elem size (writeAt mem cur v) (cur + elem) vs) addr
      = mem addr
    by_cases hc : cur = size
    · rw [if_pos hc]
    · rw [if_neg hc, ih _ _ addr (by omega)]
      exact writeAt_frame v mem cur addr (Or.inl hlt)

theorem slowPath_get (elem size sizeT : Nat) :
    ∀ (slice : List (List Nat)) (i cur : Nat) (mem : Mem) (addr : Nat),
      (∀ v ∈ slice, v.length = sizeT) → sizeT ≤ elem → i < slice.length →
      cur + i * elem < size → cur + i * elem ≤ addr → addr < cur + i * elem + sizeT →
      slowPath elem size mem cur slice addr
        = (slice.getD i []).getD (addr - (cur + i * elem)) 0 := by
  intro slice
  induction slice with
  | nil => intro i cur mem addr _ _ hi _ _ _; simp at hi
  | cons v vs ih =>
    intro i cur mem addr hlen hse hi hsz hlo hhi
    have hvlen : v.length = sizeT := hlen v (List.mem_cons_self v vs)
    have hne : cur ≠ size := by
      have : cur ≤ cur + i * elem := Nat.le_add_right _ _
      omega
    show (if cur = size then mem else slowPath elem size (writeAt mem cur v) (cur + elem) vs) addr
      = _
    rw [if_neg hne]
    cases i with
    | zero =>
      simp only [Nat.zero_mul, Nat.add_zero] at hsz hlo hhi
      rw [slowPath_frame_low elem size vs (cur + elem) _ addr (by omega)]
      rw [writeAt_get v mem cur addr hlo (by omega)]
      simp
    | succ i1 =>
      have hsm : (i1 + 1) * elem = i1 * elem + elem := by ring
      rw [show (v :: vs).getD (i1 + 1) [] = vs.getD i1 [] from List.getD_cons_succ]
      have harr : cur + (i1 + 1) * elem = (cur + elem) + i1 * elem := by omega
      rw [harr] at hsz hlo hhi ⊢
      exact ih i1 (cur + elem) (writeAt mem cur v) addr
        (fun w hw => hlen w (List.mem_cons_of_mem v hw)) hse (by simpa using hi) hsz hlo hhi

theorem slowPath_eq_writeStrided (elem size : Nat) (h0 : 0 < elem) :
    ∀ (slice : List (List Nat)) (j cur : Nat) (mem : Mem),
      size = cur + j * elem →
      slowPath elem size mem cur slice = writeStrided elem mem cur (slice.take j) := by
  intro slice
  induction slice with
  | nil => intro j cur mem _; simp [slowPath, writeStrided]
  | cons v vs ih =>
    intro j cur mem hm
    show (if cur = size then mem else slowPath elem size (writeAt mem cur v) (cur + elem) vs) = _
    by_cases hc : cur = size
    · have hj : j = 0 := by
        rcases Nat.mul_eq_zero.mp (show j * elem = 0 by omega) with h | h
        · exact h
        · omega
      rw [if_pos hc, hj]
      rfl
    · have hjpos : 0 < j := by
        rcases Nat.eq_zero_or_pos j with h | h
        · exfalso; subst h; simp at hm; omega
        · exact h
      obtain ⟨j1, rfl⟩ : ∃ j1, j = j1 + 1 := ⟨j - 1, by omega⟩
      rw [if_neg hc, List.take_succ_cons]
      show _ = writeStrided elem (writeAt mem cur v) (cur + elem) (vs.take j1)
      exact ih j1 (cur + elem) (writeAt mem cur v) (by rw [hm]; ring)

theorem slowPath_frame_high (elem size sizeT : Nat) :
    ∀ (slice : List (List Nat)) (cur : Nat) (mem : Mem) (addr : Nat),
      (∀ v ∈ slice, v.length = sizeT) → sizeT ≤ elem →
      elem ∣ (size - cur) → cur ≤ size → size ≤ addr →
      slowPath elem size mem cur slice addr = mem addr := by
  intro slice
  induction slice with
  | nil => intro cur mem addr _ _ _ _ _; rfl
  | cons v vs ih =>
    intro cur mem addr hlen hse hdvd hcs hsa
    show (if cur = size then mem else slowPath elem size (writeAt mem cur v) (cur + elem) vs) addr
      = mem addr
    by_cases hc : cur = size
    · rw [if_pos hc]
    · have hstep : cur + elem ≤ size := by
        have := Nat.le_of_dvd (by omega) hdvd
        omega
      rw [if_neg hc]
      rw [ih (cur + elem) _ addr (fun w hw => hlen w (List.mem_cons_of_mem v hw)) hse
        (by
          have h2 : size - (cur + elem) = (size - cur) - elem := by omega
          rw [h2]
          exact Nat.dvd_sub' hdvd dvd_rfl)
        hstep hsa]
      refine writeAt_frame v mem cur addr (Or.inr ?_)
      have : v.length = sizeT := hlen v (List.mem_cons_self v vs)
      omega

theorem writeAt_flatten_eq_slowPath (size sizeT : Nat) :
    ∀ (slice : List (List Nat)) (cur : Nat) (mem : Mem),
      (∀ v ∈ slice, v.length = sizeT) →
      cur + slice.length * sizeT ≤ size →
      writeAt mem cur slice.flatten = slowPath sizeT size mem cur slice := by
  intro slice
  induction slice with
  | nil => intro cur mem _ _; rfl
  | cons v vs ih =>
    intro cur mem hlen hfit
    have hvlen : v.length = sizeT := hlen v (List.mem_cons_self v vs)
    have hflat : (v :: vs).flatten = v ++ vs.flatten := rfl
    rw [hflat, writeAt_append v vs.flatten mem cur, hvlen]
    show _ = (if cur = size then mem else slowPath sizeT size (writeAt mem cur v) (cur + sizeT) vs)
    by_cases hc : cur = size
    · rw [if_pos hc]
      have hlenmul : (vs.length + 1) * sizeT = 0 := by
        have : cur + (vs.length + 1) * sizeT ≤ cur := by
          simpa [hc, List.length_cons] using hfit
        omega
      have hsz : sizeT = 0 := by
        rcases Nat.mul_eq_zero.mp hlenmul with h | h
        · omega
        · exact h
      have hvsflat : vs.flatten = [] := by
        rw [List.flatten_eq_nil_iff]
        intro w hw
        have := hlen w (List.mem_cons_of_mem v hw)
        rw [hsz] at this
        exact List.length_eq_zero.mp this
      have hv : v = [] := List.length_eq_zero.mp (by rw [hvlen]; exact hsz)
      rw [hvsflat, hv]
      rfl
    · rw [if_neg hc]
      refine ih (cur + sizeT) (writeAt mem cur v)
        (fun w hw => hlen w (List.mem_cons_of_mem v hw)) ?_
      have : (vs.length + 1) * sizeT = vs.length * sizeT + sizeT := by ring
      simp only [List.length_cons] at hfit
      omega

theorem copyAux_cons (alignment size cur : Nat) (mem : Mem) (s : List Nat)
    (rest : List (List Nat)) :
    copyFromSlicesAux alignment size cur mem (s :: rest)
      = if cur ≤ size then
          copyFromSlicesAux alignment size (cur + s.length + (cur + s.length) % alignment)
            (writeAt mem cur s) rest
        else ⟨mem, cur, true⟩ := rfl

theorem copyAux_fault_iff (alignment size : Nat) :
    ∀ (chunks : List (List Nat)) (cur : Nat) (mem : Mem),
      (copyFromSlicesAux alignment size cur mem chunks).fault = true
        ↔ ∃ k, k < chunks.length ∧
            size < (copyFromSlicesAux alignment size cur mem (chunks.take k)).cursor := by
  intro chunks
  induction chunks with
  | nil => intro cur mem; simp [copyFromSlicesAux]
  | cons s rest ih =>
    intro cur mem
    by_cases hc : cur ≤ size
    · constructor
      · intro h
        have h2 : (copyFromSlicesAux alignment size
            (cur + s.length + (cur + s.length) % alignment)
            (writeAt mem cur s) rest).fault = true := by
          simpa [copyFromSlicesAux, if_pos hc] using h
        obtain ⟨j, hj, hcur⟩ := (ih _ _).mp h2
        refine ⟨j + 1, by simpa using Nat.succ_lt_succ hj, ?_⟩
        rw [List.take_succ_cons]
        simpa [copyFromSlicesAux, if_pos hc] using hcur
      · rintro ⟨k, hk, hcur⟩
        cases k with
        | zero =>
          exfalso
          simp [copyFromSlicesAux] at hcur
          omega
        | succ j =>
          rw [List.take_succ_cons] at hcur
          simp only [copyFromSlicesAux, if_pos hc] at hcur ⊢
          exact (ih _ _).mpr ⟨j, by simpa using hk, hcur⟩
    · simp only [copyFromSlicesAux, if_neg hc]
      constructor
      · intro _
        exact ⟨0, by simp, by simp [copyFromSlicesAux]; omega⟩
      · intro _
        trivial

theorem Align.new_some (alignment size sizeT : Nat) (a : Align)
    (ha : Align.new alignment size sizeT = some a) :
    a.elem_size = sizeT + calc_padding sizeT alignment ∧ a.size = size
      ∧ calc_padding size alignment = 0 := by
  unfold Align.new at ha
  split at ha
  next h =>
    injection ha with h2
    rw [← h2]
    exact ⟨rfl, rfl, h⟩
  next h =>
    exact absurd ha (by simp)

/-! ### The claims -/

/-- Claim C1, evidence of the code bug: running `copy_from_slices` with
alignment 4 on chunks of lengths [3, 5, 2] places the second chunk at offset
6 and the third at 14 — not at offsets 4 and 12 as the claim (and the repo's
own `calc_padding`, which would pad 3 up to 4) requires — because line 28 of
util.rs adds `current % self.alignment` as padding instead of
`calc_padding(current, alignment)`.  Offsets 4 and 12 stay untouched; the
final cursor is 16, coincidentally as claimed. -/
theorem raw_padding_formula_divergence :
    (copyFromSlicesAux 4 100 0 (fun _ => 0) [[7,7,7],[8,8,8,8,8],[9,9]]).mem 0 = 7
    ∧ (copyFromSlicesAux 4 100 0 (fun _ => 0) [[7,7,7],[8,8,8,8,8],[9,9]]).mem 4 = 0
    ∧ (copyFromSlicesAux 4 100 0 (fun _ => 0) [[7,7,7],[8,8,8,8,8],[9,9]]).mem 6 = 8
    ∧ (copyFromSlicesAux 4 100 0 (fun _ => 0) [[7,7,7],[8,8,8,8,8],[9,9]]).mem 12 = 0
    ∧ (copyFromSlicesAux 4 100 0 (fun _ => 0) [[7,7,7],[8,8,8,8,8],[9,9]]).mem 14 = 9
    ∧ (copyFromSlicesAux 4 100 0 (fun _ => 0) [[7,7,7],[8,8,8,8,8],[9,9]]).cursor = 16
    ∧ calc_padding 3 4 = 1 := by
  decide

/-- Claim C2, counterexample: with size = 8, alignment = 4 and chunks of
lengths [6, 6], the cursor stands at exactly 8 before the second chunk, the
assert `current <= size` (8 ≤ 8) passes, and NO fault is signalled — the
second chunk is copied (past the region's end), contradicting the claim that
the second chunk must fault. -/
theorem raw_boundary_no_fault_counterexample :
    (copyFromSlicesAux 4 8 0 (fun _ => 0) [[1,1,1,1,1,1]]).cursor = 8
    ∧ (copyFromSlicesAux 4 8 0 (fun _ => 0) [[1,1,1,1,1,1],[2,2,2,2,2,2]]).fault = false := by
  decide

/-- Claim C2, amended: `copy_from_slices` checks `current <= size` before
copying each chunk and signals an assertion fault exactly when the cursor
before some chunk STRICTLY exceeds `size`; a cursor equal to `size` passes
the check, so with size = 8 and chunks [6, 6] the second chunk does not
fault. -/
theorem raw_fault_iff_cursor_exceeds (alignment size : Nat) (_h : 0 < alignment)
    (mem : Mem) (chunks : List (List Nat)) :
    (copyFromSlicesAux alignment size 0 mem chunks).fault = true
      ↔ ∃ k, k < chunks.length ∧
          size < (copyFromSlicesAux alignment size 0 mem (chunks.take k)).cursor :=
  copyAux_fault_iff alignment size chunks 0 mem

theorem raw_fault_iff_cursor_exceeds_witness :
    (copyFromSlicesAux 4 8 0 (fun _ => 0) [[1,1,1,1,1,1,1,1,1],[2]]).fault = true
      ↔ ∃ k, k < ([[1,1,1,1,1,1,1,1,1],[2]] : List (List Nat)).length ∧
          8 < (copyFromSlicesAux 4 8 0 (fun _ => 0)
                (([[1,1,1,1,1,1,1,1,1],[2]] : List (List Nat)).take k)).cursor :=
  raw_fault_iff_cursor_exceeds 4 8 (by decide) (fun _ => 0) [[1,1,1,1,1,1,1,1,1],[2]]

/-- Claim C3, counterexample: the construction `Align::new` with alignment 4,
size 12 and an element of natural size 8 is accepted (12 is a multiple of 4),
giving stride 8; but 8 does not divide 12, so the iterator's cursor runs
0, 8, 16, 24, ... and never equals size = 12: no call to next ever returns
none, i.e. iteration is not finite for this accepted construction. -/
theorem align_iter_nontermination_counterexample :
    Align.new 4 12 8 = some ⟨8, 12⟩ ∧ ¬ ∃ n, nthYield 8 12 0 n = none := by
  constructor
  · decide
  · rintro ⟨n, hn⟩
    have key : ∀ (m cur : Nat), cur % 8 = 0 → nthYield 8 12 cur m ≠ none := by
      intro m
      induction m with
      | zero =>
        intro cur h8
        show (if cur = 12 then none else some cur) ≠ none
        have hne : cur ≠ 12 := by omega
        simp [hne]
      | succ m ihm =>
        intro cur h8
        show (if cur = 12 then none else nthYield 8 12 (cur + 8) m) ≠ none
        have hne : cur ≠ 12 := by omega
        rw [if_neg hne]
        exact ihm (cur + 8) (by omega)
    exact key n 0 (by decide) hn

/-- Claim C3, amended: for a region whose stride additionally divides `size`
(as in the claim's instance, stride 16 and size 32), the element cursor
starts at offset 0, the n-th call yields the slot at offset `n * stride` and
advances by the stride, and iteration terminates exactly when the offset
reaches `size`, after yielding exactly `size / stride` items; when the stride
does not divide `size` the offset skips over `size` and iteration never
terminates. -/
theorem align_iter_yields_exactly_slots (elem size : Nat) (h0 : 0 < elem)
    (hd : elem ∣ size) (n : Nat) :
    nthYield elem size 0 n = if n < size / elem then some (n * elem) else none := by
  have hsz : size = 0 + (size / elem) * elem := by
    rw [Nat.zero_add, Nat.div_mul_cancel hd]
  simpa using nthYield_eq elem size h0 n 0 (size / elem) hsz

theorem align_iter_yields_exactly_slots_witness :
    nthYield 16 32 0 0 = some 0 ∧ nthYield 16 32 0 1 = some 16
      ∧ nthYield 16 32 0 2 = none := by
  refine ⟨?_, ?_, ?_⟩
  · have h := align_iter_yields_exactly_slots 16 32 (by decide) (by decide) 0
    simpa using h
  · have h := align_iter_yields_exactly_slots 16 32 (by decide) (by decide) 1
    simpa using h
  · have h := align_iter_yields_exactly_slots 16 32 (by decide) (by decide) 2
    simpa using h

/-- Claim C4: when the stride equals `size_of::<T>()` (alignment divides the
natural size, so `Align::new` derives `elem_size = sizeT` and
`copy_from_slice` takes the contiguous block-copy fast path), the output is
byte-identical to what the per-element slow path through the element cursor
would produce, under the caller contract `values.len() * stride <= size`. -/
theorem fast_path_equals_slow_path (alignment size sizeT : Nat) (a : Align)
    (mem : Mem) (slice : List (List Nat))
    (ha : Align.new alignment size sizeT = some a)
    (hfast : a.elem_size = sizeT)
    (hlen : ∀ v ∈ slice, v.length = sizeT)
    (hfit : slice.length * a.elem_size ≤ size) :
    a.copy_from_slice sizeT mem slice = slowPath a.elem_size a.size mem 0 slice := by
  obtain ⟨helem, hsize, hcp⟩ := Align.new_some alignment size sizeT a ha
  unfold Align.copy_from_slice
  rw [if_pos hfast, hfast, hsize]
  unfold fastPath
  refine writeAt_flatten_eq_slowPath size sizeT slice 0 mem hlen ?_
  rw [hfast] at hfit
  omega

theorem fast_path_equals_slow_path_witness :
    Align.copy_from_slice ⟨4, 8⟩ 4 (fun _ => 0) [[1,2,3,4]]
      = slowPath 4 8 (fun _ => 0) 0 [[1,2,3,4]] :=
  fast_path_equals_slow_path 4 8 4 ⟨4, 8⟩ (fun _ => 0) [[1,2,3,4]]
    (by decide) (by decide) (by decide) (by decide)

/-- Claim C5: for all alignment > 0 and address, the shared padding function
satisfies `(address + pad) % alignment = 0` and `pad < alignment` (and
`0 ≤ pad` holds trivially over ℕ, matching unsigned `u64`), with no
power-of-two assumption on the alignment. -/
theorem calc_padding_aligns (adr alignment : Nat) (h : 0 < alignment) :
    (adr + calc_padding adr alignment) % alignment = 0
      ∧ calc_padding adr alignment < alignment :=
  ⟨calc_padding_add_mod adr alignment h, calc_padding_lt adr alignment h⟩

theorem calc_padding_aligns_witness :
    (7 + calc_padding 7 4) % 4 = 0 ∧ calc_padding 7 4 < 4 :=
  calc_padding_aligns 7 4 (by decide)

/-- Claim C6: the stride is fixed at construction as
`size_of(T) + calc_padding(size_of(T), alignment)`; the slow path writes
value `i` at byte offset `i * stride`; and in the instance size = 48,
alignment = 16, natural size 12, the stride is 16 and three elements land at
offsets 0, 16, 32, each followed by 4 untouched padding bytes
(offsets 12-15, 28-31, 44-47 keep their prior value 0). -/
theorem align_stride_and_placement :
    (∀ alignment size sizeT a, Align.new alignment size sizeT = some a →
      a.elem_size = sizeT + calc_padding sizeT alignment)
    ∧ (∀ (elem size sizeT : Nat) (mem : Mem) (slice : List (List Nat)) (i addr : Nat),
        (∀ v ∈ slice, v.length = sizeT) → sizeT ≤ elem → i < slice.length →
        i * elem < size → i * elem ≤ addr → addr < i * elem + sizeT →
        slowPath elem size mem 0 slice addr
          = (slice.getD i []).getD (addr - i * elem) 0)
    ∧ (Align.new 16 48 12 = some ⟨16, 48⟩
       ∧ (∀ addr ∈ [12, 13, 14, 15, 28, 29, 30, 31, 44, 45, 46, 47],
            Align.copy_from_slice ⟨16, 48⟩ 12 (fun _ => 0)
              [List.replicate 12 1, List.replicate 12 2, List.replicate 12 3] addr = 0)
       ∧ (∀ addr ∈ [0, 11],
            Align.copy_from_slice ⟨16, 48⟩ 12 (fun _ => 0)
              [List.replicate 12 1, List.replicate 12 2, List.replicate 12 3] addr = 1)
       ∧ (∀ addr ∈ [16, 27],
            Align.copy_from_slice ⟨16, 48⟩ 12 (fun _ => 0)
              [List.replicate 12 1, List.replicate 12 2, List.replicate 12 3] addr = 2)
       ∧ (∀ addr ∈ [32, 43],
            Align.copy_from_slice ⟨16, 48⟩ 12 (fun _ => 0)
              [List.replicate 12 1, List.replicate 12 2, List.replicate 12 3] addr = 3)) := by
  refine ⟨?_, ?_, ?_⟩
  · intro alignment size sizeT a ha
    exact (Align.new_some alignment size sizeT a ha).1
  · intro elem size sizeT mem slice i addr hlen hse hi hsz hlo hhi
    have h := slowPath_get elem size sizeT slice i 0 mem addr hlen hse hi
      (by simpa using hsz) (by simpa using hlo) (by simpa using hhi)
    simpa using h
  · decide

theorem align_stride_and_placement_witness :
    (⟨16, 48⟩ : Align).elem_size = 12 + calc_padding 12 16
    ∧ slowPath 2 4 (fun _ => 0) 0 [[5],[6]] 2
        = (([[5],[6]] : List (List Nat)).getD 1 []).getD (2 - 1 * 2) 0 :=
  ⟨align_stride_and_placement.1 16 48 12 ⟨16, 48⟩ (by decide),
   align_stride_and_placement.2.1 2 4 1 (fun _ => 0) [[5],[6]] 1 2
     (by decide) (by decide) (by decide) (by decide) (by decide) (by decide)⟩

/-- Claim C7: `Align::new` fails with the misconfiguration assertion exactly
when `size` is not a multiple of the (positive) alignment; the construction
takes and produces no memory, so the fault is signalled before any write to
the destination region. -/
theorem align_new_fails_iff (alignment size sizeT : Nat) (h : 0 < alignment) :
    Align.new alignment size sizeT = none ↔ size % alignment ≠ 0 := by
  unfold Align.new
  by_cases hcp : calc_padding size alignment = 0
  · rw [if_pos hcp]
    constructor
    · intro habs
      exact absurd habs (by simp)
    · intro hne
      exact absurd ((calc_padding_eq_zero_iff size alignment h).mp hcp) hne
  · rw [if_neg hcp]
    constructor
    · intro _
      exact fun h0 => hcp ((calc_padding_eq_zero_iff size alignment h).mpr h0)
    · intro _
      rfl

theorem align_new_fails_iff_witness : Align.new 4 6 3 = none :=
  (align_new_fails_iff 4 6 3 (by decide)).mpr (by decide)

/-- Claim C8: when a bounds-violation fault occurs partway through a
`copy_from_slices` call — the cursor after the successfully-processed prefix
strictly exceeds `size`, so the next chunk's assert fires — the run faults
and the region's contents equal exactly the result of copying the prefixet
chunks: nothing is rolled back and nothing further is written. -/
theorem raw_no_rollback_on_fault (alignment size : Nat) (_h0 : 0 < alignment)
    (mem : Mem) (pre rest : List (List Nat)) (bad : List Nat)
    (h1 : (copyFromSlicesAux alignment size 0 mem pre).fault = false)
    (h2 : size < (copyFromSlicesAux alignment size 0 mem pre).cursor) :
    (copyFromSlicesAux alignment size 0 mem (pre ++ bad :: rest)).fault = true
    ∧ (copyFromSlicesAux alignment size 0 mem (pre ++ bad :: rest)).mem
        = (copyFromSlicesAux alignment size 0 mem pre).mem := by
  have happ := copyAux_append alignment size pre (bad :: rest) 0 mem
  rw [h1] at happ
  rw [if_neg (by simp)] at happ
  rw [happ, copyAux_cons, if_neg (by omega)]
  exact ⟨rfl, rfl⟩

theorem raw_no_rollback_on_fault_witness :
    (copyFromSlicesAux 4 8 0 (fun _ => 0) ([[1,1,1,1,1,1,1,1,1]] ++ [2] :: [])).fault = true
    ∧ (copyFromSlicesAux 4 8 0 (fun _ => 0) ([[1,1,1,1,1,1,1,1,1]] ++ [2] :: [])).mem
        = (copyFromSlicesAux 4 8 0 (fun _ => 0) [[1,1,1,1,1,1,1,1,1]]).mem :=
  raw_no_rollback_on_fault 4 8 (by decide) (fun _ => 0) [[1,1,1,1,1,1,1,1,1]] [] [2]
    (by decide) (by decide)

/-- Claim C9: `copy_from_slices` never assigns to the aligner's fields and
its cursor is a local starting at 0, so a second call on the same instance
returns the struct unchanged and overwrites the region from offset 0 —
whatever an earlier call wrote there — rather than appending: byte `i` of the
second call's first chunk is read back at address `i`. -/
theorem raw_cursor_resets_each_call (a : AlignByteSlice) (_h0 : 0 < a.alignment)
    (mem : Mem) (c1 : List (List Nat)) (s : List Nat) (rest : List (List Nat))
    (i : Nat) (hi : i < s.length) :
    (a.copy_from_slices ((a.copy_from_slices mem c1).2.mem) (s :: rest)).1 = a
    ∧ (a.copy_from_slices ((a.copy_from_slices mem c1).2.mem) (s :: rest)).2.mem i
        = s.getD i 0 := by
  refine ⟨rfl, ?_⟩
  show (copyFromSlicesAux a.alignment a.size 0 ((a.copy_from_slices mem c1).2.mem)
    (s :: rest)).mem i = s.getD i 0
  show (if 0 ≤ a.size then _ else RawResult.mk _ 0 true).mem i = s.getD i 0
  rw [if_pos (Nat.zero_le _)]
  rw [copyAux_frame_low a.alignment a.size rest _ _ i (by omega)]
  rw [writeAt_get s _ 0 i (Nat.zero_le i) (by omega)]
  simp

theorem raw_cursor_resets_each_call_witness :
    ((⟨4, 100⟩ : AlignByteSlice).copy_from_slices
        (((⟨4, 100⟩ : AlignByteSlice).copy_from_slices (fun _ => 0) [[9,9,9]]).2.mem)
        ([7,8] :: [])).1 = ⟨4, 100⟩
    ∧ ((⟨4, 100⟩ : AlignByteSlice).copy_from_slices
        (((⟨4, 100⟩ : AlignByteSlice).copy_from_slices (fun _ => 0) [[9,9,9]]).2.mem)
        ([7,8] :: [])).2.mem 1 = ([7,8] : List Nat).getD 1 0 :=
  raw_cursor_resets_each_call ⟨4, 100⟩ (by decide) (fun _ => 0) [[9,9,9]] [7,8] [] 1
    (by decide)

/-- Claim C10: in the slow path (`elem_size ≠ size_of::<T>()`), when the
stride divides `size`, `copy_from_slice` writes exactly
`min(slice.len(), size / stride)` elements — a longer input is silently
truncated at the last slot by the cursor's termination, with no fault and no
write at or past `size` — unlike the fast path, which copies all
`slice.len()` elements unconditionally (the concrete conjunct shows it
writing at address 5 in a region of size 4). -/
theorem slow_path_truncates_silently :
    (∀ (alignment size sizeT : Nat) (a : Align) (mem : Mem) (slice : List (List Nat)),
      Align.new alignment size sizeT = some a →
      a.elem_size ≠ sizeT →
      a.elem_size ∣ size →
      (∀ v ∈ slice, v.length = sizeT) →
      a.copy_from_slice sizeT mem slice
          = writeStrided a.elem_size mem 0 (slice.take (size / a.elem_size))
        ∧ ∀ addr, size ≤ addr → a.copy_from_slice sizeT mem slice addr = mem addr)
    ∧ Align.copy_from_slice ⟨2, 4⟩ 2 (fun _ => 0) [[1,1],[2,2],[3,3]] 5 = 3 := by
  constructor
  · intro alignment size sizeT a mem slice ha hne hdvd hlen
    obtain ⟨helem, hsize, hcp⟩ := Align.new_some alignment size sizeT a ha
    have hst : sizeT < a.elem_size := by
      have hp : calc_padding sizeT alignment ≠ 0 := by
        intro h0
        exact hne (by omega)
      omega
    have h0 : 0 < a.elem_size := by omega
    unfold Align.copy_from_slice
    rw [if_neg hne, hsize]
    constructor
    · exact slowPath_eq_writeStrided a.elem_size size h0 slice (size / a.elem_size) 0 mem
        (by rw [Nat.zero_add, Nat.div_mul_cancel hdvd])
    · intro addr haddr
      exact slowPath_frame_high a.elem_size size sizeT slice 0 mem addr hlen
        (le_of_lt hst) (by simpa using hdvd) (Nat.zero_le _) haddr
  · decide

theorem slow_path_truncates_silently_witness :
    (Align.copy_from_slice ⟨4, 8⟩ 2 (fun _ => 0) [[1,1],[2,2],[3,3]]
        = writeStrided 4 (fun _ => 0) 0 (([[1,1],[2,2],[3,3]] : List (List Nat)).take (8 / 4)))
    ∧ ∀ addr, 8 ≤ addr →
        Align.copy_from_slice ⟨4, 8⟩ 2 (fun _ => 0) [[1,1],[2,2],[3,3]] addr
          = (fun _ => (0 : Nat)) addr :=
  slow_path_truncates_silently.1 4 8 2 ⟨4, 8⟩ (fun _ => 0) [[1,1],[2,2],[3,3]]
    (by decide) (by decide) (by decide) (by decide)

